import Mathlib

/-!
Shallow embedding of `src/sprite.rs` (crate `sprite`): a hierarchical 2D
scene-graph node with a texture region, a local transform, tint/opacity,
frame-based animation and recursive children.

Modelling conventions:
* `f64` / `f32` scalars are modelled as `Rat` (the code only adds,
  multiplies, negates and compares them).
* `Uuid` is modelled as `Nat`; ids are supplied by the caller at
  construction time (the generator is an external collaborator that
  produces globally unique values).
* `HashMap` is modelled as an association list with no duplicate keys
  maintained by its insert/remove operations.
* Rust panics (out-of-bounds `Vec` indexing, `usize` underflow in
  `len() - 1` on an empty vector) are modelled by `Option`/`none`.
* The affine `Matrix2d` of the `graphics` crate is an external
  collaborator; it is modelled as the free term algebra over the
  operations the code uses (`trans`, `rot_deg`, `scale`, `flip_h`,
  `flip_v`), which keeps everything computable.
* The `Graphics` backend is modelled by returning the list of submitted
  quads (the arguments of each `Image::draw` call) instead of drawing.
-/

/-- A 2D vector (`Vec2d = [f64; 2]`). -/
structure Vec2 where
  x : Rat
  y : Rat
deriving Repr, DecidableEq

/-- RGB color (`[f32; 3]`). -/
structure Color3 where
  r : Rat
  g : Rat
  b : Rat
deriving Repr, DecidableEq

/-- A rectangle `[x, y, w, h]` (`SourceRectangle` / `Rectangle` = `[f64; 4]`). -/
structure Rect where
  x : Rat
  y : Rat
  w : Rat
  h : Rat
deriving Repr, DecidableEq

/-- The texture capability: only its pixel size is ever queried. -/
structure Texture where
  width : Nat
  height : Nat
deriving Repr, DecidableEq

/-- The `FrameSet` type: an animation clip descriptor.  `repeat'` models the Rust
field `repeat` (a Lean keyword). -/
structure FrameSet where
  repeat' : Bool
  frame_time : Rat
  source : List Rect
deriving Repr, DecidableEq

/-- Free term algebra over the affine-transform operations used by the code
(the `graphics` crate's `Matrix2d` is an external collaborator). -/
inductive Matrix2d : Type where
  | id0 : Matrix2d
  | trans (m : Matrix2d) (x y : Rat) : Matrix2d
  | rot_deg (m : Matrix2d) (deg : Rat) : Matrix2d
  | scale (m : Matrix2d) (sx sy : Rat) : Matrix2d
  | flip_h (m : Matrix2d) : Matrix2d
  | flip_v (m : Matrix2d) : Matrix2d
deriving Repr, DecidableEq

/-- The non-recursive fields of `Sprite<I>`. -/
structure SpriteData where
  id : Nat
  visible : Bool
  anchor : Vec2
  position : Vec2
  rotation : Rat
  scale : Vec2
  color : Color3
  flip_x : Bool
  flip_y : Bool
  opacity : Rat
  src_rect : Option Rect
  texture : Texture
  frames : Option FrameSet
  frames_followup : Option String
  frame_sets : List (String × FrameSet)
  frame_idx : Nat
  frame_delta : Rat
deriving Repr, DecidableEq

/-- The `Sprite<I>` type: the recursive scene-graph node.  `children_index` is the
`HashMap<Uuid, usize>` from child id to position in `children`. -/
inductive Sprite : Type where
  | mk (data : SpriteData) (children : List Sprite)
      (children_index : List (Nat × Nat)) : Sprite
deriving Repr

def Sprite.data : Sprite → SpriteData
  | .mk d _ _ => d

def Sprite.children : Sprite → List Sprite
  | .mk _ cs _ => cs

def Sprite.children_index : Sprite → List (Nat × Nat)
  | .mk _ _ idx => idx

/-- Model of `Sprite::id` (ignoring the `clone`). -/
def Sprite.id (s : Sprite) : Nat := s.data.id

def Sprite.visible (s : Sprite) : Bool := s.data.visible

def Sprite.frame_idx (s : Sprite) : Nat := s.data.frame_idx

def Sprite.frame_delta (s : Sprite) : Rat := s.data.frame_delta

def Sprite.frames (s : Sprite) : Option FrameSet := s.data.frames

def Sprite.frames_followup (s : Sprite) : Option String := s.data.frames_followup

def Sprite.frame_sets (s : Sprite) : List (String × FrameSet) := s.data.frame_sets

/-! ## Association-list model of `HashMap` -/

/-- Model of `HashMap::get`: the value of the first entry with the given key. -/
def alGet {α β : Type} [BEq α] (m : List (α × β)) (k : α) : Option β :=
  (m.find? (fun kv => kv.1 == k)).map (fun kv => kv.2)

/-- Model of `HashMap::contains_key`. -/
def alContains {α β : Type} [BEq α] (m : List (α × β)) (k : α) : Bool :=
  (alGet m k).isSome

/-- Model of `HashMap::insert`: replaces any existing entry with the same key. -/
def alInsert {α β : Type} [BEq α] (m : List (α × β)) (k : α) (v : β) :
    List (α × β) :=
  (k, v) :: m.filter (fun kv => !(kv.1 == k))

/-- Model of `HashMap::remove`, keeping only the updated map (the removed value is
obtained separately via `alGet`). -/
def alDelete {α β : Type} [BEq α] (m : List (α × β)) (k : α) : List (α × β) :=
  m.filter (fun kv => !(kv.1 == k))

/-! ## Constructors -/

/-- Model of `Sprite::from_texture` (the id is supplied by the external generator). -/
def from_texture (id : Nat) (texture : Texture) : Sprite :=
  Sprite.mk
    { id := id
      visible := true
      anchor := ⟨1/2, 1/2⟩
      position := ⟨0, 0⟩
      rotation := 0
      scale := ⟨1, 1⟩
      color := ⟨1, 1, 1⟩
      flip_x := false
      flip_y := false
      opacity := 1
      src_rect := none
      texture := texture
      frames := none
      frames_followup := none
      frame_sets := []
      frame_idx := 0
      frame_delta := 0 }
    [] []

/-- Model of `Sprite::from_texture_rect`. -/
def from_texture_rect (id : Nat) (texture : Texture) (src_rect : Rect) : Sprite :=
  Sprite.mk
    { id := id
      visible := true
      anchor := ⟨1/2, 1/2⟩
      position := ⟨0, 0⟩
      rotation := 0
      scale := ⟨1, 1⟩
      color := ⟨1, 1, 1⟩
      flip_x := false
      flip_y := false
      opacity := 1
      src_rect := some src_rect
      texture := texture
      frames := none
      frames_followup := none
      frame_sets := []
      frame_idx := 0
      frame_delta := 0 }
    [] []

/-! ## Children subsystem -/

/-- Model of `Sprite::add_child`: append the child and record its position; returns
the updated sprite together with the added child's id. -/
def add_child (s : Sprite) (c : Sprite) : Sprite × Nat :=
  match s with
  | .mk d cs idx =>
    let id := c.id
    let cs' := cs ++ [c]
    (Sprite.mk d cs' (alInsert idx id (cs'.length - 1)), id)

/-- Body of the reindexing loop of `Sprite::remove_child`: insert
`(child.id, i)` for each child of the suffix `rest = children[i..]`,
with `i` counting up. -/
def reindexLoop (idx : List (Nat × Nat)) (rest : List Sprite) (i : Nat) :
    List (Nat × Nat) :=
  match rest with
  | [] => idx
  | c :: rest' => reindexLoop (alInsert idx c.id i) rest' (i + 1)

/-- The reindexing loop in `Sprite::remove_child`:
`for i in index..children.len() { children_index.insert(children[i].id(), i) }`. -/
def reindexFrom (idx : List (Nat × Nat)) (cs : List Sprite) (start : Nat) :
    List (Nat × Nat) :=
  reindexLoop idx (cs.drop start) start

mutual

/-- Model of `Sprite::remove_child`.  Here `none` models a panic (cannot happen on a
well-formed sprite); `some (s', r)` is the updated sprite and the Rust
return value `r : Option<Sprite>`. -/
def remove_child (s : Sprite) (id : Nat) : Option (Sprite × Option Sprite) :=
  match s with
  | .mk d cs idx =>
    match alGet idx id with
    | some index =>
      let idx₁ := alDelete idx id
      match cs.get? index with
      | none => none
      | some removed =>
        let cs' := cs.eraseIdx index
        some (Sprite.mk d cs' (reindexFrom idx₁ cs' index), some removed)
    | none =>
      match removeFromChildren cs id with
      | none => none
      | some (cs', r) => some (Sprite.mk d cs' idx, r)

/-- The recursive search loop of `remove_child` over the children list:
returns the updated children and the first hit, stopping at it. -/
def removeFromChildren (cs : List Sprite) (id : Nat) :
    Option (List Sprite × Option Sprite) :=
  match cs with
  | [] => some ([], none)
  | c :: rest =>
    match remove_child c id with
    | none => none
    | some (c', some r) => some (c' :: rest, some r)
    | some (c', none) =>
      match removeFromChildren rest id with
      | none => none
      | some (rest', r) => some (c' :: rest', r)

end

/-! ## Animation subsystem -/

/-- Model of `Sprite::play`: activate a registered clip (unknown names are ignored)
and set or clear the followup field. -/
def play (s : Sprite) (name : String) (followup : Option String) : Sprite :=
  match s with
  | .mk d cs idx =>
    let d₁ :=
      match alGet d.frame_sets name with
      | some fs => { d with frames := some fs }
      | none => d
    let d₂ :=
      match followup with
      | none => { d₁ with frames_followup := none }
      | some next => { d₁ with frames_followup := some next }
    Sprite.mk d₂ cs idx

/-- Model of `Sprite::add_frameset`: first registration wins, duplicates ignored. -/
def add_frameset (s : Sprite) (name : String) (repeat' : Bool)
    (frame_time : Rat) (source : List Rect) : Sprite :=
  match s with
  | .mk d cs idx =>
    if alContains d.frame_sets name then s
    else
      Sprite.mk
        { d with frame_sets :=
            alInsert d.frame_sets name ⟨repeat', frame_time, source⟩ }
        cs idx

/-- Model of `Sprite::add_frameset_horizontal`: frame `i` is
`[i * source.w, source.y, source.w, source.h]` (note: `source.x` is unused
by the code). -/
def add_frameset_horizontal (s : Sprite) (name : String) (repeat' : Bool)
    (frame_time : Rat) (source : Rect) (count : Nat) : Sprite :=
  let srcs : List Rect :=
    (List.range count).map
      (fun (i : Nat) => ⟨(i : Rat) * source.w, source.y, source.w, source.h⟩)
  add_frameset s name repeat' frame_time srcs

/-- Model of `Sprite::update`.  Here `none` models the `usize` underflow panic of
`frame.source.len() - 1` on an empty frame list (debug semantics). -/
def update (s : Sprite) (dt : Rat) : Option Sprite :=
  match s with
  | .mk d cs idx =>
    match d.frames with
    | none => some s
    | some frame =>
      let frame_delta := d.frame_delta + dt
      if frame_delta > frame.frame_time then
        if frame.source.length = 0 then none
        else
          let (frame_idx, followup) :=
            if d.frame_idx = frame.source.length - 1 then
              let (fi, fu) :=
                match d.frames_followup with
                | some next => (0, some next)
                | none => (d.frame_idx, (none : Option String))
              (if frame.repeat' then 0 else fi, fu)
            else (d.frame_idx, none)
          let s' := Sprite.mk { d with frame_delta := 0, frame_idx := frame_idx } cs idx
          match followup with
          | some next => some (play s' next none)
          | none => some s'
      else some (Sprite.mk { d with frame_delta := frame_delta } cs idx)

/-! ## Drawing -/

/-- The active source rectangle, as computed identically in `draw`,
`draw_tinted` and `bounding_box`: the current animation frame when a frame
set is active (indexing may panic, hence `none`), else the explicit
`src_rect`, else the full texture extent. -/
def sourceRectangleOf (d : SpriteData) : Option Rect :=
  match d.frames with
  | none => some (d.src_rect.getD ⟨0, 0, (d.texture.width : Rat), (d.texture.height : Rat)⟩)
  | some frame => frame.source.get? d.frame_idx

/-- One call of `graphics::Image::draw`: the arguments the renderer
capability receives for one textured quad. -/
structure Quad where
  color : List Rat
  rect : Rect
  src_rect : Option Rect
  model : Matrix2d
  texture : Texture
deriving Repr, DecidableEq

mutual

/-- Model of `Sprite::draw`: the list of quads submitted for this sprite and its
subtree, in submission order.  `none` models the out-of-bounds panic of
`frame.source[self.frame_idx]`. -/
def draw (s : Sprite) (t : Matrix2d) : Option (List Quad) :=
  match s with
  | .mk d cs _ =>
    if !d.visible then some [] else
    match sourceRectangleOf d with
    | none => none
    | some source_rectangle =>
      let anchor : Vec2 :=
        ⟨d.anchor.x * source_rectangle.w, d.anchor.y * source_rectangle.h⟩
      let transformed :=
        ((t.trans d.position.x d.position.y).rot_deg d.rotation).scale d.scale.x d.scale.y
      let model₁ :=
        if d.flip_x then
          (transformed.trans (source_rectangle.w - 2 * anchor.x) 0).flip_h
        else transformed
      let model₂ :=
        if d.flip_y then
          (model₁.trans 0 (source_rectangle.h - 2 * anchor.y)).flip_v
        else model₁
      let quad : Quad :=
        { color := [d.color.r, d.color.g, d.color.b, d.opacity]
          rect := ⟨-anchor.x, -anchor.y, source_rectangle.w, source_rectangle.h⟩
          src_rect := d.src_rect
          model := model₂
          texture := d.texture }
      match drawChildren cs transformed with
      | none => none
      | some qs => some (quad :: qs)

/-- The child-recursion loop of `draw`. -/
def drawChildren (cs : List Sprite) (t : Matrix2d) : Option (List Quad) :=
  match cs with
  | [] => some []
  | c :: rest =>
    match draw c t with
    | none => none
    | some qs =>
      match drawChildren rest t with
      | none => none
      | some qs' => some (qs ++ qs')

end

mutual

/-- Model of `Sprite::draw_tinted`: identical to `draw` except the submitted color
uses the override `c` with this node's own opacity, and the override is
passed to every child. -/
def draw_tinted (s : Sprite) (t : Matrix2d) (c : Color3) : Option (List Quad) :=
  match s with
  | .mk d cs _ =>
    if !d.visible then some [] else
    match sourceRectangleOf d with
    | none => none
    | some source_rectangle =>
      let anchor : Vec2 :=
        ⟨d.anchor.x * source_rectangle.w, d.anchor.y * source_rectangle.h⟩
      let transformed :=
        ((t.trans d.position.x d.position.y).rot_deg d.rotation).scale d.scale.x d.scale.y
      let model₁ :=
        if d.flip_x then
          (transformed.trans (source_rectangle.w - 2 * anchor.x) 0).flip_h
        else transformed
      let model₂ :=
        if d.flip_y then
          (model₁.trans 0 (source_rectangle.h - 2 * anchor.y)).flip_v
        else model₁
      let quad : Quad :=
        { color := [c.r, c.g, c.b, d.opacity]
          rect := ⟨-anchor.x, -anchor.y, source_rectangle.w, source_rectangle.h⟩
          src_rect := d.src_rect
          model := model₂
          texture := d.texture }
      match drawTintedChildren cs transformed c with
      | none => none
      | some qs => some (quad :: qs)

/-- The child-recursion loop of `draw_tinted`. -/
def drawTintedChildren (cs : List Sprite) (t : Matrix2d) (c : Color3) :
    Option (List Quad) :=
  match cs with
  | [] => some []
  | child :: rest =>
    match draw_tinted child t c with
    | none => none
    | some qs =>
      match drawTintedChildren rest t c with
      | none => none
      | some qs' => some (qs ++ qs')

end

/-- Model of `Sprite::bounding_box`.  Here `none` models the out-of-bounds panic of
`frame.source[self.frame_idx]`. -/
def bounding_box (s : Sprite) : Option Rect :=
  match s with
  | .mk d _ _ =>
    match sourceRectangleOf d with
    | none => none
    | some source_rectangle =>
      let sprite_w := source_rectangle.w * d.scale.x
      let sprite_h := source_rectangle.h * d.scale.y
      some
        ⟨d.position.x - d.anchor.x * sprite_w,
         d.position.y - d.anchor.y * sprite_h,
         sprite_w, sprite_h⟩

/-! ## Well-formedness of the children index -/

/-- The ids of a list of sprites, in order. -/
def childIds (cs : List Sprite) : List Nat := cs.map Sprite.id

/-- Boolean "no duplicates" for a list of ids. -/
def nodupB : List Nat → Bool
  | [] => true
  | x :: xs => !(xs.contains x) && nodupB xs

/-- The keys of an association list. -/
def alKeys {α β : Type} (m : List (α × β)) : List α := m.map Prod.fst

/-- The children-index invariant at one node, exactly as the spec states
it: every key of the map points to a child with that id, every child's id
appears in the map exactly once. -/
def wfIdx (cs : List Sprite) (idx : List (Nat × Nat)) : Bool :=
  nodupB (alKeys idx) &&
  idx.all (fun kv => ((cs.get? kv.2).map Sprite.id) == some kv.1) &&
  cs.all (fun c => (alKeys idx).contains c.id)

mutual

/-- Well-formedness of a sprite tree: at every node the children have
pairwise distinct ids and the children index is their exact inverse. -/
def wfb : Sprite → Bool
  | .mk _ cs idx => nodupB (childIds cs) && wfIdx cs idx && wfbChildren cs

def wfbChildren : List Sprite → Bool
  | [] => true
  | c :: rest => wfb c && wfbChildren rest

end

mutual

/-- All ids strictly below a sprite (its descendants' ids, not its own). -/
def descIds : Sprite → List Nat
  | .mk _ cs _ => descIdsChildren cs

def descIdsChildren : List Sprite → List Nat
  | [] => []
  | c :: rest => c.id :: (descIds c ++ descIdsChildren rest)

end

/-- Position of the first occurrence of `k` in `l`. -/
def posOf (l : List Nat) (k : Nat) : Option Nat :=
  match l with
  | [] => none
  | a :: rest => if a = k then some 0 else (posOf rest k).map (fun j => j + 1)

/-- Extensional reading of the invariant: looking up any id in the index
map gives exactly the position of that id among the children. -/
def ExtIdx (cs : List Sprite) (idx : List (Nat × Nat)) : Prop :=
  ∀ k, alGet idx k = posOf (childIds cs) k

/-! ## Call sequences at the public interface (for the index invariant) -/

/-- One public tree operation on the root sprite. -/
inductive Op : Type where
  | add (c : Sprite) : Op
  | remove (id : Nat) : Op

/-- Apply one operation; a panic inside `remove_child` (impossible on
well-formed sprites) is modelled as leaving the sprite unchanged. -/
def applyOp (s : Sprite) (op : Op) : Sprite :=
  match op with
  | .add c => (add_child s c).1
  | .remove id =>
    match remove_child s id with
    | some (s', _) => s'
    | none => s

def applyOps (s : Sprite) (ops : List Op) : Sprite := ops.foldl applyOp s

/-- Side condition on a call sequence: every sprite handed to `add_child`
is itself well-formed and carries a fresh id (the external id generator
produces globally unique ids). -/
def opsOk : Sprite → List Op → Bool
  | _, [] => true
  | s, op :: rest =>
    (match op with
     | .add c => wfb c && !((childIds s.children).contains c.id)
     | .remove _ => true) && opsOk (applyOp s op) rest

/-! ## Lemmas about the association-list map -/

theorem find?_filter_ne {α β : Type} [BEq α] [LawfulBEq α]
    (m : List (α × β)) (k k' : α) (h : k' ≠ k) :
    List.find? (fun kv => kv.1 == k') (m.filter fun kv => !(kv.1 == k))
      = List.find? (fun kv => kv.1 == k') m := by
  induction m with
  | nil => rfl
  | cons kv rest ih =>
    by_cases hkv : (kv.1 == k) = true
    · have hkk' : (kv.1 == k') = false := by
        rw [Bool.eq_false_iff]
        intro e
        exact h ((eq_of_beq e).symm.trans (eq_of_beq hkv))
      rw [List.filter_cons_of_neg (by simp [hkv]), List.find?_cons_of_neg _ (by simp [hkk']), ih]
    · rw [List.filter_cons_of_pos (by simp [hkv])]
      by_cases hkk' : (kv.1 == k') = true
      · rw [List.find?_cons_of_pos (List.filter (fun kv => !(kv.1 == k)) rest) hkk',
          List.find?_cons_of_pos rest hkk']
      · rw [List.find?_cons_of_neg _ (by simp [hkk']),
          List.find?_cons_of_neg _ (by simp [hkk']), ih]

theorem alGet_insert {α β : Type} [BEq α] [LawfulBEq α] [DecidableEq α]
    (m : List (α × β)) (k k' : α) (v : β) :
    alGet (alInsert m k v) k' = if k' = k then some v else alGet m k' := by
  by_cases h : k' = k
  · subst h
    simp [alGet, alInsert]
  · have hk : (k == k') = false := by
      rw [Bool.eq_false_iff]
      intro e
      exact h (eq_of_beq e).symm
    simp only [alGet, alInsert, if_neg h]
    rw [List.find?_cons_of_neg _ (by simp [hk]), find?_filter_ne m k k' h]

theorem alGet_delete {α β : Type} [BEq α] [LawfulBEq α] [DecidableEq α]
    (m : List (α × β)) (k k' : α) :
    alGet (alDelete m k) k' = if k' = k then none else alGet m k' := by
  by_cases h : k' = k
  · subst h
    simp only [alDelete, alGet, if_pos rfl]
    rw [List.find?_eq_none.mpr]
    · rfl
    · intro kv hkv
      have := List.of_mem_filter hkv
      simpa using this
  · simp only [alGet, alDelete, if_neg h]
    rw [find?_filter_ne m k k' h]

theorem mem_alKeys_of_alGet {α β : Type} [BEq α] [LawfulBEq α]
    (m : List (α × β)) (k : α) (v : β) (h : alGet m k = some v) :
    k ∈ alKeys m := by
  induction m with
  | nil => simp [alGet] at h
  | cons kv rest ih =>
    by_cases hkv : (kv.1 == k) = true
    · simp [alKeys, eq_of_beq hkv]
    · rw [alGet, List.find?_cons_of_neg _ (by simp [hkv])] at h
      simp only [alKeys, List.map_cons, List.mem_cons]
      exact Or.inr (ih h)

theorem alGet_eq_none_of_not_mem {α β : Type} [BEq α] [LawfulBEq α]
    (m : List (α × β)) (k : α) (h : k ∉ alKeys m) :
    alGet m k = none := by
  induction m with
  | nil => rfl
  | cons kv rest ih =>
    simp only [alKeys, List.map_cons, List.mem_cons] at h
    push_neg at h
    have hkv : (kv.1 == k) = false := by
      rw [Bool.eq_false_iff]
      intro e
      exact h.1 (eq_of_beq e).symm
    rw [alGet, List.find?_cons_of_neg _ (by simp [hkv])]
    exact ih h.2

theorem alGet_of_mem_nodup {α β : Type} [BEq α] [LawfulBEq α]
    (m : List (α × β)) (k : α) (v : β)
    (hnd : (alKeys m).Nodup) (h : (k, v) ∈ m) :
    alGet m k = some v := by
  induction m with
  | nil => simp at h
  | cons kv rest ih =>
    simp only [alKeys, List.map_cons, List.nodup_cons] at hnd
    rcases List.mem_cons.mp h with h1 | h2
    · subst h1
      rw [alGet, List.find?_cons_of_pos _ (by simp)]
      rfl
    · have hk : k ∈ alKeys rest := by
        simp only [alKeys, List.mem_map]
        exact ⟨(k, v), h2, rfl⟩
      have hkv : (kv.1 == k) = false := by
        rw [Bool.eq_false_iff]
        intro e
        exact hnd.1 ((eq_of_beq e) ▸ hk)
      rw [alGet, List.find?_cons_of_neg _ (by simp [hkv])]
      exact ih hnd.2 h2

theorem alGet_cons {α β : Type} [BEq α] (kv : α × β) (rest : List (α × β))
    (k : α) :
    alGet (kv :: rest) k = if (kv.1 == k) = true then some kv.2 else alGet rest k := by
  simp only [alGet, List.find?_cons]
  cases h : (kv.1 == k) <;> simp [h]

theorem alGet_isSome_of_mem_keys {α β : Type} [BEq α] [LawfulBEq α]
    (m : List (α × β)) (k : α) (h : k ∈ alKeys m) :
    (alGet m k).isSome = true := by
  induction m with
  | nil => simp [alKeys] at h
  | cons kv rest ih =>
    rw [alGet_cons]
    by_cases hkv : (kv.1 == k) = true
    · simp [hkv]
    · simp only [alKeys, List.map_cons, List.mem_cons] at h
      rcases h with h1 | h2
      · exact absurd (by simp [h1]) hkv
      · simp only [hkv, if_false]
        exact ih h2

theorem nodupB_iff (l : List Nat) : nodupB l = true ↔ l.Nodup := by
  induction l with
  | nil => simp [nodupB]
  | cons x xs ih =>
    simp [nodupB, List.nodup_cons, ih, List.elem_iff]

/-! ## Lemmas about `posOf` -/

theorem posOf_append (l₁ l₂ : List Nat) (k : Nat) :
    posOf (l₁ ++ l₂) k =
      match posOf l₁ k with
      | some j => some j
      | none => (posOf l₂ k).map (fun j => j + l₁.length) := by
  induction l₁ with
  | nil => simp [posOf]
  | cons a rest ih =>
    by_cases h : a = k
    · simp [posOf, h]
    · rw [List.cons_append, posOf, if_neg h, posOf, if_neg h, ih]
      cases hp : posOf rest k with
      | some j => rfl
      | none =>
        cases hq : posOf l₂ k with
        | some j =>
          show some (j + rest.length + 1) = some (j + (rest.length + 1))
          rw [Nat.add_assoc]
        | none => rfl

theorem posOf_eq_none_iff (l : List Nat) (k : Nat) :
    posOf l k = none ↔ k ∉ l := by
  induction l with
  | nil => simp [posOf]
  | cons a rest ih =>
    by_cases h : a = k
    · simp [posOf, h]
    · rw [posOf, if_neg h, Option.map_eq_none', ih]
      constructor
      · intro hn hm
        rcases List.mem_cons.mp hm with rfl | hm
        · exact h rfl
        · exact hn hm
      · exact fun hn hm => hn (List.mem_cons_of_mem a hm)

theorem posOf_get? (l : List Nat) (k : Nat) (j : Nat) (h : posOf l k = some j) :
    l.get? j = some k := by
  induction l generalizing j with
  | nil => simp [posOf] at h
  | cons a rest ih =>
    by_cases ha : a = k
    · simp [posOf, ha] at h
      subst h
      simp [ha]
    · rw [posOf, if_neg ha, Option.map_eq_some'] at h
      obtain ⟨j', hj', rfl⟩ := h
      simpa using ih j' hj'

theorem posOf_lt_length (l : List Nat) (k : Nat) (j : Nat)
    (h : posOf l k = some j) : j < l.length :=
  (List.get?_eq_some.mp (posOf_get? l k j h)).1

theorem posOf_of_get?_nodup (l : List Nat) (k : Nat) (j : Nat)
    (hnd : l.Nodup) (h : l.get? j = some k) : posOf l k = some j := by
  induction l generalizing j with
  | nil => simp at h
  | cons a rest ih =>
    rcases List.nodup_cons.mp hnd with ⟨ha, hrest⟩
    cases j with
    | zero =>
      simp only [List.get?_cons_zero, Option.some_inj] at h
      simp [posOf, h]
    | succ j' =>
      simp only [List.get?_cons_succ] at h
      have hk : k ∈ rest := List.get?_mem h
      have hak : ¬(a = k) := fun e => ha (e ▸ hk)
      rw [posOf, if_neg hak, ih j' hrest h]
      rfl

theorem posOf_isSome_of_mem (l : List Nat) (k : Nat) (h : k ∈ l) :
    ∃ j, posOf l k = some j := by
  cases hp : posOf l k with
  | none => exact absurd h ((posOf_eq_none_iff l k).mp hp)
  | some j => exact ⟨j, rfl⟩

/-! ## The reindexing loop computes positions -/

theorem childIds_cons (c : Sprite) (cs : List Sprite) :
    childIds (c :: cs) = c.id :: childIds cs := rfl

theorem alGet_reindexLoop (rest : List Sprite) (m : List (Nat × Nat)) (i k : Nat)
    (hnd : (childIds rest).Nodup) :
    alGet (reindexLoop m rest i) k =
      match posOf (childIds rest) k with
      | some j => some (i + j)
      | none => alGet m k := by
  induction rest generalizing m i with
  | nil => simp [reindexLoop, childIds, posOf]
  | cons c rest' ih =>
    rw [childIds_cons, List.nodup_cons] at hnd
    rw [reindexLoop, ih _ _ hnd.2, childIds_cons]
    by_cases hck : c.id = k
    · subst hck
      rw [(posOf_eq_none_iff _ _).mpr hnd.1]
      simp [posOf, alGet_insert]
    · rw [posOf, if_neg hck]
      cases hp : posOf (childIds rest') k with
      | some j =>
        show some (i + 1 + j) = some (i + (j + 1))
        rw [Nat.add_assoc, Nat.add_comm 1 j]
      | none =>
        show alGet (alInsert m c.id i) k = alGet m k
        rw [alGet_insert, if_neg (Ne.symm hck)]

/-! ## The invariant is exactly "the map computes positions" -/

theorem extIdx_of_wfIdx (cs : List Sprite) (idx : List (Nat × Nat))
    (hnd : (childIds cs).Nodup) (h : wfIdx cs idx = true) : ExtIdx cs idx := by
  simp only [wfIdx, Bool.and_eq_true] at h
  obtain ⟨⟨_, hall⟩, hcont⟩ := h
  intro k
  cases hv : alGet idx k with
  | some v =>
    obtain ⟨kv, hfind, hv2⟩ :
        ∃ kv, List.find? (fun kv => kv.1 == k) idx = some kv ∧ kv.2 = v := by
      rw [alGet] at hv
      cases hf : List.find? (fun kv => kv.1 == k) idx with
      | none => rw [hf] at hv; simp at hv
      | some kv =>
        rw [hf] at hv
        simp only [Option.map_some', Option.some_inj] at hv
        exact ⟨kv, rfl, hv⟩
    have hmem : kv ∈ idx := List.mem_of_find?_eq_some hfind
    have hk1 : kv.1 = k := by
      have := List.find?_some hfind
      simpa using this
    have hbeq := (List.all_eq_true.mp hall) kv hmem
    have hgets : (cs.get? kv.2).map Sprite.id = some kv.1 := by
      simpa using hbeq
    have hcid : (childIds cs).get? kv.2 = some k := by
      rw [childIds, List.get?_map, hgets, hk1]
    rw [posOf_of_get?_nodup _ _ _ hnd hcid, hv2]
  | none =>
    cases hp : posOf (childIds cs) k with
    | none => rfl
    | some j =>
      exfalso
      have hkmem : k ∈ childIds cs := by
        by_contra hnot
        rw [(posOf_eq_none_iff _ _).mpr hnot] at hp
        exact Option.noConfusion hp
      obtain ⟨c, hc, hck⟩ := List.mem_map.mp hkmem
      have := (List.all_eq_true.mp hcont) c hc
      rw [hck] at this
      have hk : k ∈ alKeys idx := List.elem_iff.mp this
      have := alGet_isSome_of_mem_keys idx k hk
      rw [hv] at this
      simp at this

theorem wfIdx_of_extIdx (cs : List Sprite) (idx : List (Nat × Nat))
    (h : ExtIdx cs idx) (hk : (alKeys idx).Nodup) : wfIdx cs idx = true := by
  simp only [wfIdx, Bool.and_eq_true]
  refine ⟨⟨(nodupB_iff _).mpr hk, ?_⟩, ?_⟩
  · rw [List.all_eq_true]
    intro kv hkv
    have hget : alGet idx kv.1 = some kv.2 :=
      alGet_of_mem_nodup idx kv.1 kv.2 hk (by simpa using hkv)
    rw [h kv.1] at hget
    have hcid := posOf_get? _ _ _ hget
    rw [childIds, List.get?_map] at hcid
    simpa using hcid
  · rw [List.all_eq_true]
    intro c hc
    have hmem : c.id ∈ childIds cs := List.mem_map_of_mem Sprite.id hc
    obtain ⟨j, hj⟩ := posOf_isSome_of_mem _ _ hmem
    have hget : alGet idx c.id = some j := by rw [h c.id, hj]
    have := mem_alKeys_of_alGet _ _ _ hget
    exact List.elem_iff.mpr this

/-! ## Key-uniqueness is preserved by the map operations -/

theorem alKeys_sublist_filter {α β : Type} (p : α × β → Bool) (m : List (α × β)) :
    (alKeys (m.filter p)).Sublist (alKeys m) :=
  (List.filter_sublist m).map Prod.fst

theorem alKeys_nodup_insert {α β : Type} [BEq α] [LawfulBEq α]
    (m : List (α × β)) (k : α) (v : β) (h : (alKeys m).Nodup) :
    (alKeys (alInsert m k v)).Nodup := by
  have hsub := alKeys_sublist_filter (fun kv => !(kv.1 == k)) m
  refine List.nodup_cons.mpr ⟨?_, hsub.nodup h⟩
  intro hk
  obtain ⟨kv, hkv, hfst⟩ := List.mem_map.mp hk
  have := List.of_mem_filter hkv
  rw [hfst] at this
  simp at this

theorem alKeys_nodup_delete {α β : Type} [BEq α]
    (m : List (α × β)) (k : α) (h : (alKeys m).Nodup) :
    (alKeys (alDelete m k)).Nodup :=
  (alKeys_sublist_filter _ m).nodup h

theorem alKeys_nodup_reindexLoop (m : List (Nat × Nat)) (rest : List Sprite)
    (i : Nat) (h : (alKeys m).Nodup) :
    (alKeys (reindexLoop m rest i)).Nodup := by
  induction rest generalizing m i with
  | nil => exact h
  | cons c rest' ih => exact ih _ _ (alKeys_nodup_insert m c.id i h)

/-! ## `childIds` under list surgery -/

theorem childIds_append (cs₁ cs₂ : List Sprite) :
    childIds (cs₁ ++ cs₂) = childIds cs₁ ++ childIds cs₂ :=
  List.map_append _ _ _

theorem childIds_take (cs : List Sprite) (n : Nat) :
    childIds (cs.take n) = (childIds cs).take n := by
  simp [childIds, List.map_take]

theorem childIds_drop (cs : List Sprite) (n : Nat) :
    childIds (cs.drop n) = (childIds cs).drop n := by
  simp [childIds, List.map_drop]

theorem childIds_length (cs : List Sprite) :
    (childIds cs).length = cs.length :=
  List.length_map _ _

/-! ## The index map after `add_child` -/

theorem extIdx_append_fresh (cs : List Sprite) (idx : List (Nat × Nat))
    (c : Sprite) (hExt : ExtIdx cs idx) (hfresh : c.id ∉ childIds cs) :
    ExtIdx (cs ++ [c]) (alInsert idx c.id cs.length) := by
  intro k
  rw [alGet_insert, childIds_append, posOf_append]
  by_cases hk : k = c.id
  · subst hk
    rw [(posOf_eq_none_iff _ _).mpr hfresh, if_pos rfl]
    simp [childIds, posOf]
  · rw [if_neg hk, hExt k]
    cases hp : posOf (childIds cs) k with
    | some j => rfl
    | none =>
      show none = Option.map _ (posOf (childIds [c]) k)
      simp only [childIds, List.map_cons, List.map_nil, posOf]
      rw [if_neg (fun e => hk e.symm)]
      rfl

/-! ## The index map after removal at a hit -/

theorem extIdx_erase (cs : List Sprite) (idx : List (Nat × Nat)) (id index : Nat)
    (hnd : (childIds cs).Nodup) (hExt : ExtIdx cs idx)
    (hpos : posOf (childIds cs) id = some index) :
    ExtIdx (cs.eraseIdx index)
      (reindexFrom (alDelete idx id) (cs.eraseIdx index) index) := by
  have hltIds : index < (childIds cs).length := posOf_lt_length _ _ _ hpos
  have hlt : index < cs.length := by rwa [childIds_length] at hltIds
  have hid : (childIds cs).get? index = some id := posOf_get? _ _ _ hpos
  -- decomposition of the id list around the removed position
  have hsplit : childIds cs =
      (childIds cs).take index ++ id :: (childIds cs).drop (index + 1) := by
    conv_lhs => rw [← List.take_append_drop index (childIds cs)]
    congr 1
    rw [List.drop_eq_get_cons hltIds]
    congr 1
    have := hid
    rw [List.get?_eq_get hltIds] at this
    exact Option.some_inj.mp this
  have hlenTake : ((childIds cs).take index).length = index := by
    rw [List.length_take]
    exact Nat.min_eq_left (Nat.le_of_lt hltIds)
  -- nodup facts from the decomposition
  have hnd' := hnd
  rw [hsplit, List.nodup_append] at hnd'
  obtain ⟨hndTake, hndCons, hdisj⟩ := hnd'
  have hidDrop : id ∉ (childIds cs).drop (index + 1) :=
    (List.nodup_cons.mp hndCons).1
  have hndDrop : ((childIds cs).drop (index + 1)).Nodup :=
    (List.nodup_cons.mp hndCons).2
  have hidTake : id ∉ (childIds cs).take index := by
    intro hmem
    exact hdisj hmem (List.mem_cons_self _ _)
  -- the erased lists
  have hcs' : cs.eraseIdx index = cs.take index ++ cs.drop (index + 1) :=
    List.eraseIdx_eq_take_drop_succ cs index
  have hids' : childIds (cs.eraseIdx index) =
      (childIds cs).take index ++ (childIds cs).drop (index + 1) := by
    rw [hcs', childIds_append, childIds_take, childIds_drop]
  -- the loop runs over exactly the dropped suffix
  have hlenTakeCs : (cs.take index).length = index := by
    rw [List.length_take]
    exact Nat.min_eq_left (Nat.le_of_lt hlt)
  have hdropErase : (cs.eraseIdx index).drop index = cs.drop (index + 1) := by
    rw [hcs']
    have hstep :
        List.drop index (List.take index cs ++ List.drop (index + 1) cs) =
          List.drop (List.take index cs).length
            (List.take index cs ++ List.drop (index + 1) cs) := by
      rw [hlenTakeCs]
    rw [hstep, List.drop_left]
  intro k
  rw [reindexFrom, hdropErase]
  rw [alGet_reindexLoop _ _ _ _ (by rw [childIds_drop]; exact hndDrop)]
  rw [childIds_drop, hids', posOf_append, hlenTake]
  by_cases hk : k = id
  · subst hk
    rw [(posOf_eq_none_iff _ _).mpr hidTake, (posOf_eq_none_iff _ _).mpr hidDrop]
    simp [alGet_delete]
  · cases hpt : posOf ((childIds cs).take index) k with
    | some j =>
      -- k occurs before the removed position; the old entry survives
      have hkTake : k ∈ (childIds cs).take index := by
        by_contra hnot
        rw [(posOf_eq_none_iff _ _).mpr hnot] at hpt
        exact Option.noConfusion hpt
      have hkDrop : k ∉ (childIds cs).drop (index + 1) := by
        intro hmem
        exact hdisj hkTake (List.mem_cons_of_mem _ hmem)
      rw [(posOf_eq_none_iff _ _).mpr hkDrop, alGet_delete, if_neg hk, hExt k]
      rw [hsplit, posOf_append, hpt]
    | none =>
      cases hpd : posOf ((childIds cs).drop (index + 1)) k with
      | some j =>
        show some (index + j) = some (j + index)
        rw [Nat.add_comm]
      | none =>
        rw [alGet_delete, if_neg hk, hExt k, hsplit, posOf_append, hpt]
        show Option.map _ (posOf (id :: _) k) = none
        rw [posOf, if_neg (fun e => hk e.symm), hpd]
        rfl

/-! ## Structural induction over sprite trees -/

theorem Sprite.strongInd {motive : Sprite → Prop}
    (h : ∀ d cs idx, (∀ c ∈ cs, motive c) → motive (.mk d cs idx)) :
    ∀ s, motive s := by
  intro s
  induction s using Sprite.rec (motive_2 := fun cs => ∀ c ∈ cs, motive c) with
  | mk d cs idx ih => exact h d cs idx ih
  | nil =>
    rename_i c hc
    exact absurd hc (List.not_mem_nil c)
  | cons c cs ihc ihcs =>
    rename_i x hx
    rcases List.mem_cons.mp hx with rfl | hx'
    · exact ihc
    · exact ihcs x hx'

/-! ## Unfolding helpers for `wfb` -/

theorem wfb_mk_iff (d : SpriteData) (cs : List Sprite) (idx : List (Nat × Nat)) :
    wfb (.mk d cs idx) = true ↔
      nodupB (childIds cs) = true ∧ wfIdx cs idx = true ∧ wfbChildren cs = true := by
  simp [wfb, Bool.and_eq_true, and_assoc]

theorem wfbChildren_iff (cs : List Sprite) :
    wfbChildren cs = true ↔ ∀ c ∈ cs, wfb c = true := by
  induction cs with
  | nil => simp [wfbChildren]
  | cons c rest ih => simp [wfbChildren, Bool.and_eq_true, ih]

theorem wfIdx_keys_nodup (cs : List Sprite) (idx : List (Nat × Nat))
    (h : wfIdx cs idx = true) : (alKeys idx).Nodup := by
  simp only [wfIdx, Bool.and_eq_true] at h
  exact (nodupB_iff _).mp h.1.1

theorem childIds_eq_of_map_data (cs cs' : List Sprite)
    (h : cs'.map Sprite.data = cs.map Sprite.data) :
    childIds cs' = childIds cs := by
  have h2 : (cs'.map Sprite.data).map SpriteData.id
      = (cs.map Sprite.data).map SpriteData.id := by rw [h]
  simpa [childIds, List.map_map, Sprite.id, Function.comp] using h2

/-! ## `add_child` preserves the invariant -/

theorem wfb_add_child (d : SpriteData) (cs : List Sprite) (idx : List (Nat × Nat))
    (c : Sprite) (hs : wfb (.mk d cs idx) = true) (hc : wfb c = true)
    (hfresh : c.id ∉ childIds cs) :
    wfb (add_child (.mk d cs idx) c).1 = true := by
  obtain ⟨hnd, hidx, hch⟩ := (wfb_mk_iff d cs idx).mp hs
  have hndP : (childIds cs).Nodup := (nodupB_iff _).mp hnd
  have hExt : ExtIdx cs idx := extIdx_of_wfIdx cs idx hndP hidx
  have hkeys : (alKeys idx).Nodup := wfIdx_keys_nodup cs idx hidx
  have hlen : (cs ++ [c]).length - 1 = cs.length := by simp
  show wfb (.mk d (cs ++ [c]) (alInsert idx c.id ((cs ++ [c]).length - 1))) = true
  rw [hlen, wfb_mk_iff]
  refine ⟨?_, ?_, ?_⟩
  · rw [nodupB_iff, childIds_append]
    rw [List.nodup_append]
    refine ⟨hndP, List.nodup_singleton _, ?_⟩
    intro a ha hb
    rw [childIds] at hb
    simp only [List.map_cons, List.map_nil, List.mem_singleton] at hb
    exact hfresh (hb ▸ ha)
  · exact wfIdx_of_extIdx _ _ (extIdx_append_fresh cs idx c hExt hfresh)
      (alKeys_nodup_insert idx c.id cs.length hkeys)
  · rw [wfbChildren_iff]
    intro x hx
    rcases List.mem_append.mp hx with hx | hx
    · exact (wfbChildren_iff cs).mp hch x hx
    · rw [List.mem_singleton.mp hx]
      exact hc

/-! ## `remove_child` never panics and preserves the invariant -/

theorem removeFromChildren_ok (cs : List Sprite) (id : Nat)
    (IH : ∀ c ∈ cs, wfb c = true →
      ∃ p : Sprite × Option Sprite, remove_child c id = some p ∧
        wfb p.1 = true ∧ p.1.data = c.data)
    (hch : wfbChildren cs = true) :
    ∃ cs' r, removeFromChildren cs id = some (cs', r) ∧
      wfbChildren cs' = true ∧ cs'.map Sprite.data = cs.map Sprite.data := by
  induction cs with
  | nil => exact ⟨[], none, rfl, rfl, rfl⟩
  | cons c rest ih =>
    have hc : wfb c = true := ((wfbChildren_iff _).mp hch) c (List.mem_cons_self c rest)
    have hrest : wfbChildren rest = true := by
      rw [wfbChildren_iff]
      intro x hx
      exact ((wfbChildren_iff _).mp hch) x (List.mem_cons_of_mem c hx)
    obtain ⟨p, hp, hwf, hdata⟩ := IH c (List.mem_cons_self c rest) hc
    obtain ⟨c', r₀⟩ := p
    cases r₀ with
    | some r =>
      refine ⟨c' :: rest, some r, ?_, ?_, ?_⟩
      · rw [removeFromChildren, hp]
      · rw [wfbChildren_iff]
        intro x hx
        rcases List.mem_cons.mp hx with rfl | hx'
        · exact hwf
        · exact ((wfbChildren_iff _).mp hrest) x hx'
      · simp only [List.map_cons]
        rw [hdata]
    | none =>
      obtain ⟨rest', r, hrec, hwf', hmap⟩ :=
        ih (fun x hx => IH x (List.mem_cons_of_mem c hx)) hrest
      refine ⟨c' :: rest', r, ?_, ?_, ?_⟩
      · rw [removeFromChildren, hp, hrec]
      · rw [wfbChildren_iff]
        intro x hx
        rcases List.mem_cons.mp hx with rfl | hx'
        · exact hwf
        · exact ((wfbChildren_iff _).mp hwf') x hx'
      · simp only [List.map_cons]
        rw [hdata, hmap]

theorem remove_child_ok (s : Sprite) (id : Nat) (hs : wfb s = true) :
    ∃ p : Sprite × Option Sprite, remove_child s id = some p ∧
      wfb p.1 = true ∧ p.1.data = s.data := by
  induction s using Sprite.strongInd with
  | _ d cs idx IH =>
    obtain ⟨hnd, hidx, hch⟩ := (wfb_mk_iff d cs idx).mp hs
    have hndP : (childIds cs).Nodup := (nodupB_iff _).mp hnd
    have hExt : ExtIdx cs idx := extIdx_of_wfIdx cs idx hndP hidx
    have hkeys : (alKeys idx).Nodup := wfIdx_keys_nodup cs idx hidx
    cases halGet : alGet idx id with
    | some index =>
      have hpos : posOf (childIds cs) id = some index := by
        rw [← hExt id, halGet]
      have hltIds : index < (childIds cs).length := posOf_lt_length _ _ _ hpos
      have hlt : index < cs.length := by rwa [childIds_length] at hltIds
      have hget : cs.get? index = some (cs.get ⟨index, hlt⟩) := List.get?_eq_get hlt
      refine ⟨(Sprite.mk d (cs.eraseIdx index)
        (reindexFrom (alDelete idx id) (cs.eraseIdx index) index),
        some (cs.get ⟨index, hlt⟩)), ?_, ?_, rfl⟩
      · rw [remove_child, halGet]
        simp only [hget]
      · rw [wfb_mk_iff]
        refine ⟨?_, ?_, ?_⟩
        · rw [nodupB_iff]
          exact ((List.eraseIdx_sublist cs index).map Sprite.id).nodup hndP
        · exact wfIdx_of_extIdx _ _ (extIdx_erase cs idx id index hndP hExt hpos)
            (alKeys_nodup_reindexLoop _ _ _ (alKeys_nodup_delete idx id hkeys))
        · rw [wfbChildren_iff]
          intro x hx
          exact ((wfbChildren_iff cs).mp hch) x
            ((List.eraseIdx_sublist cs index).mem hx)
    | none =>
      obtain ⟨cs', r, hrec, hwf', hmap⟩ :=
        removeFromChildren_ok cs id (fun c hc hcwf => IH c hc hcwf) hch
      refine ⟨(Sprite.mk d cs' idx, r), ?_, ?_, rfl⟩
      · rw [remove_child, halGet]
        simp only [hrec]
      · have hcid : childIds cs' = childIds cs := childIds_eq_of_map_data cs cs' hmap
        rw [wfb_mk_iff]
        refine ⟨by rw [hcid]; exact hnd, ?_, hwf'⟩
        refine wfIdx_of_extIdx _ _ ?_ hkeys
        intro k
        rw [hcid]
        exact hExt k

/-! ## The invariant holds after any well-formed call sequence -/

theorem wfb_applyOp_add (s c : Sprite) (hs : wfb s = true) (hc : wfb c = true)
    (hfresh : ((childIds s.children).contains c.id) = false) :
    wfb (applyOp s (.add c)) = true := by
  cases s with
  | mk d cs idx =>
    rw [Sprite.children] at hfresh
    have hfresh' : c.id ∉ childIds cs := by
      intro hmem
      have h1 : (childIds cs).contains c.id = true := List.elem_eq_true_of_mem hmem
      rw [h1] at hfresh
      exact Bool.noConfusion hfresh
    exact wfb_add_child d cs idx c hs hc hfresh'

theorem wfb_applyOps (s : Sprite) (ops : List Op) (hs : wfb s = true)
    (hops : opsOk s ops = true) : wfb (applyOps s ops) = true := by
  induction ops generalizing s with
  | nil => exact hs
  | cons op rest ih =>
    have h2 : applyOps s (op :: rest) = applyOps (applyOp s op) rest := rfl
    rw [h2]
    cases op with
    | add c =>
      have hun : opsOk s (.add c :: rest)
          = ((wfb c && !((childIds s.children).contains c.id))
            && opsOk (applyOp s (.add c)) rest) := rfl
      rw [hun, Bool.and_eq_true, Bool.and_eq_true, Bool.not_eq_true'] at hops
      exact ih _ (wfb_applyOp_add s c hs hops.1.1 hops.1.2) hops.2
    | remove id =>
      have hun : opsOk s (.remove id :: rest)
          = (true && opsOk (applyOp s (.remove id)) rest) := rfl
      rw [hun, Bool.true_and] at hops
      obtain ⟨⟨s', r⟩, hp, hwf, _⟩ := remove_child_ok s id hs
      have h3 : applyOp s (.remove id) = s' := by
        rw [applyOp, hp]
      rw [h3] at hops ⊢
      exact ih _ hwf hops

/-! ## Descendant ids -/

theorem descIds_mk (d : SpriteData) (cs : List Sprite) (idx : List (Nat × Nat)) :
    descIds (.mk d cs idx) = descIdsChildren cs := rfl

theorem descIdsChildren_cons (c : Sprite) (rest : List Sprite) :
    descIdsChildren (c :: rest) = c.id :: (descIds c ++ descIdsChildren rest) := rfl

theorem id_mem_descIdsChildren (cs : List Sprite) (c : Sprite) (hc : c ∈ cs) :
    c.id ∈ descIdsChildren cs := by
  induction cs with
  | nil => cases hc
  | cons x rest ih =>
    rw [descIdsChildren_cons]
    rcases List.mem_cons.mp hc with rfl | h
    · exact List.mem_cons_self _ _
    · exact List.mem_cons_of_mem _ (List.mem_append_right _ (ih h))

theorem descIds_mem_descIdsChildren (cs : List Sprite) (c : Sprite) (hc : c ∈ cs)
    (x : Nat) (hx : x ∈ descIds c) : x ∈ descIdsChildren cs := by
  induction cs with
  | nil => cases hc
  | cons y rest ih =>
    rw [descIdsChildren_cons]
    rcases List.mem_cons.mp hc with rfl | h
    · exact List.mem_cons_of_mem _ (List.mem_append_left _ hx)
    · exact List.mem_cons_of_mem _ (List.mem_append_right _ (ih h))

theorem not_mem_childIds_of_not_mem_descIds (cs : List Sprite) (id : Nat)
    (h : id ∉ descIdsChildren cs) : id ∉ childIds cs := by
  intro hmem
  obtain ⟨c, hc, hcid⟩ := List.mem_map.mp hmem
  exact h (hcid ▸ id_mem_descIdsChildren cs c hc)

/-! ## Removal of an absent id is the identity -/

theorem removeFromChildren_absent (cs : List Sprite) (id : Nat)
    (IH : ∀ c ∈ cs, wfb c = true → id ∉ descIds c →
      remove_child c id = some (c, none))
    (hch : wfbChildren cs = true)
    (habs : ∀ c ∈ cs, id ∉ descIds c) :
    removeFromChildren cs id = some (cs, none) := by
  induction cs with
  | nil => rfl
  | cons c rest ih =>
    have hc : wfb c = true := ((wfbChildren_iff _).mp hch) c (List.mem_cons_self c rest)
    have h1 : remove_child c id = some (c, none) :=
      IH c (List.mem_cons_self c rest) hc (habs c (List.mem_cons_self c rest))
    have h2 : removeFromChildren rest id = some (rest, none) := by
      refine ih (fun x hx => IH x (List.mem_cons_of_mem c hx)) ?_
        (fun x hx => habs x (List.mem_cons_of_mem c hx))
      rw [wfbChildren_iff]
      intro x hx
      exact ((wfbChildren_iff _).mp hch) x (List.mem_cons_of_mem c hx)
    rw [removeFromChildren, h1, h2]

/-! ## Exact shape of a successful removal -/

/-- The relation `RemovedRel s s' r`: `s'` is `s` with the single node `r` removed
somewhere strictly below the root; the removed node's former siblings keep
their order, the parent's index map becomes the exact inverse of its new
children, and every node off the path to `r` is untouched. -/
inductive RemovedRel : Sprite → Sprite → Sprite → Prop where
  | here (d : SpriteData) (pre post : List Sprite) (r : Sprite)
      (idx idx' : List (Nat × Nat)) (hidx' : wfIdx (pre ++ post) idx' = true) :
      RemovedRel (.mk d (pre ++ r :: post) idx) (.mk d (pre ++ post) idx') r
  | there (d : SpriteData) (pre post : List Sprite) (c c' r : Sprite)
      (idx : List (Nat × Nat)) (h : RemovedRel c c' r) :
      RemovedRel (.mk d (pre ++ c :: post) idx) (.mk d (pre ++ c' :: post) idx) r

theorem removeFromChildren_found (cs : List Sprite) (id : Nat)
    (IHfound : ∀ c ∈ cs, wfb c = true → id ∈ descIds c →
      ∃ c' r, remove_child c id = some (c', some r) ∧ r.id = id ∧ RemovedRel c c' r)
    (IHabsent : ∀ c ∈ cs, wfb c = true → id ∉ descIds c →
      remove_child c id = some (c, none))
    (hch : wfbChildren cs = true)
    (hnotdirect : ∀ c ∈ cs, c.id ≠ id)
    (hmem : id ∈ descIdsChildren cs) :
    ∃ pre c c' post r, cs = pre ++ c :: post ∧
      removeFromChildren cs id = some (pre ++ c' :: post, some r) ∧
      r.id = id ∧ RemovedRel c c' r := by
  induction cs with
  | nil => cases hmem
  | cons c rest ih =>
    have hc : wfb c = true := ((wfbChildren_iff _).mp hch) c (List.mem_cons_self c rest)
    by_cases hin : id ∈ descIds c
    · obtain ⟨c', r, hrm, hrid, hrel⟩ := IHfound c (List.mem_cons_self c rest) hc hin
      refine ⟨[], c, c', rest, r, rfl, ?_, hrid, hrel⟩
      rw [removeFromChildren, hrm]
      rfl
    · have h1 : remove_child c id = some (c, none) :=
        IHabsent c (List.mem_cons_self c rest) hc hin
      have hmem' : id ∈ descIdsChildren rest := by
        rw [descIdsChildren_cons] at hmem
        rcases List.mem_cons.mp hmem with h | h
        · exact absurd h.symm (hnotdirect c (List.mem_cons_self c rest))
        · rcases List.mem_append.mp h with h | h
          · exact absurd h hin
          · exact h
      obtain ⟨pre', c₀, c₀', post', r, hdec, hrec, hrid, hrel⟩ :=
        ih (fun x hx => IHfound x (List.mem_cons_of_mem c hx))
          (fun x hx => IHabsent x (List.mem_cons_of_mem c hx))
          (by
            rw [wfbChildren_iff]
            intro x hx
            exact ((wfbChildren_iff _).mp hch) x (List.mem_cons_of_mem c hx))
          (fun x hx => hnotdirect x (List.mem_cons_of_mem c hx))
          hmem'
      refine ⟨c :: pre', c₀, c₀', post', r, ?_, ?_, hrid, hrel⟩
      · rw [List.cons_append, ← hdec]
      · rw [removeFromChildren, h1, hrec]
        rfl

theorem remove_child_cases (id : Nat) :
    ∀ s, wfb s = true →
      (id ∉ descIds s → remove_child s id = some (s, none)) ∧
      (id ∈ descIds s →
        ∃ s' r, remove_child s id = some (s', some r) ∧ r.id = id ∧
          RemovedRel s s' r) := by
  intro s
  induction s using Sprite.strongInd with
  | _ d cs idx IH =>
    intro hs
    obtain ⟨hnd, hidx, hch⟩ := (wfb_mk_iff d cs idx).mp hs
    have hndP : (childIds cs).Nodup := (nodupB_iff _).mp hnd
    have hExt : ExtIdx cs idx := extIdx_of_wfIdx cs idx hndP hidx
    have hkeys : (alKeys idx).Nodup := wfIdx_keys_nodup cs idx hidx
    constructor
    · intro habs
      rw [descIds_mk] at habs
      have halGet : alGet idx id = none := by
        rw [hExt id]
        exact (posOf_eq_none_iff _ _).mpr
          (not_mem_childIds_of_not_mem_descIds cs id habs)
      have hrec : removeFromChildren cs id = some (cs, none) :=
        removeFromChildren_absent cs id
          (fun c hc hcwf hcabs => ((IH c hc) hcwf).1 hcabs) hch
          (fun c hc hx => habs (descIds_mem_descIdsChildren cs c hc id hx))
      rw [remove_child, halGet]
      simp only [hrec]
    · intro hmem
      rw [descIds_mk] at hmem
      cases halGet : alGet idx id with
      | some index =>
        have hpos : posOf (childIds cs) id = some index := by
          rw [← hExt id, halGet]
        have hltIds : index < (childIds cs).length := posOf_lt_length _ _ _ hpos
        have hlt : index < cs.length := by rwa [childIds_length] at hltIds
        have hget : cs.get? index = some (cs.get ⟨index, hlt⟩) := List.get?_eq_get hlt
        have hrid : (cs.get ⟨index, hlt⟩).id = id := by
          have h1 : (childIds cs).get? index = some id := posOf_get? _ _ _ hpos
          rw [childIds, List.get?_map, hget] at h1
          simpa using h1
        have hdecomp : cs =
            cs.take index ++ cs.get ⟨index, hlt⟩ :: cs.drop (index + 1) := by
          conv_lhs => rw [← List.take_append_drop index cs]
          congr 1
          exact List.drop_eq_get_cons hlt
        have herase : cs.eraseIdx index = cs.take index ++ cs.drop (index + 1) :=
          List.eraseIdx_eq_take_drop_succ cs index
        have hwfIdx' :
            wfIdx (cs.eraseIdx index)
              (reindexFrom (alDelete idx id) (cs.eraseIdx index) index) = true :=
          wfIdx_of_extIdx _ _ (extIdx_erase cs idx id index hndP hExt hpos)
            (alKeys_nodup_reindexLoop _ _ _ (alKeys_nodup_delete idx id hkeys))
        refine ⟨.mk d (cs.eraseIdx index)
            (reindexFrom (alDelete idx id) (cs.eraseIdx index) index),
          cs.get ⟨index, hlt⟩, ?_, hrid, ?_⟩
        · rw [remove_child, halGet]
          simp only [hget]
        · rw [herase] at hwfIdx' ⊢
          nth_rewrite 1 [hdecomp]
          exact RemovedRel.here d (cs.take index) (cs.drop (index + 1))
            (cs.get ⟨index, hlt⟩) idx _ hwfIdx'
      | none =>
        have hnotInIds : id ∉ childIds cs := by
          have h0 : posOf (childIds cs) id = none := by rw [← hExt id, halGet]
          exact (posOf_eq_none_iff _ _).mp h0
        have hnotdirect : ∀ c ∈ cs, c.id ≠ id := by
          intro c hc he
          exact hnotInIds (he ▸ List.mem_map_of_mem Sprite.id hc)
        obtain ⟨pre, c, c', post, r, hdec, hrec, hrid, hrel⟩ :=
          removeFromChildren_found cs id
            (fun c hc hcwf hcin => ((IH c hc) hcwf).2 hcin)
            (fun c hc hcwf hcabs => ((IH c hc) hcwf).1 hcabs)
            hch hnotdirect hmem
        refine ⟨.mk d (pre ++ c' :: post) idx, r, ?_, hrid, ?_⟩
        · rw [remove_child, halGet]
          simp only [hrec]
        · rw [hdec]
          exact RemovedRel.there d pre post c c' r idx hrel

/-! ## Projection helpers -/

@[simp] theorem Sprite.data_mk (d : SpriteData) (cs : List Sprite)
    (idx : List (Nat × Nat)) : (Sprite.mk d cs idx).data = d := rfl

@[simp] theorem Sprite.children_mk (d : SpriteData) (cs : List Sprite)
    (idx : List (Nat × Nat)) : (Sprite.mk d cs idx).children = cs := rfl

@[simp] theorem Sprite.children_index_mk (d : SpriteData) (cs : List Sprite)
    (idx : List (Nat × Nat)) : (Sprite.mk d cs idx).children_index = idx := rfl

@[simp] theorem Sprite.frames_mk (d : SpriteData) (cs : List Sprite)
    (idx : List (Nat × Nat)) : (Sprite.mk d cs idx).frames = d.frames := rfl

@[simp] theorem Sprite.frame_idx_mk (d : SpriteData) (cs : List Sprite)
    (idx : List (Nat × Nat)) : (Sprite.mk d cs idx).frame_idx = d.frame_idx := rfl

@[simp] theorem Sprite.frame_delta_mk (d : SpriteData) (cs : List Sprite)
    (idx : List (Nat × Nat)) : (Sprite.mk d cs idx).frame_delta = d.frame_delta := rfl

@[simp] theorem Sprite.frames_followup_mk (d : SpriteData) (cs : List Sprite)
    (idx : List (Nat × Nat)) :
    (Sprite.mk d cs idx).frames_followup = d.frames_followup := rfl

@[simp] theorem Sprite.frame_sets_mk (d : SpriteData) (cs : List Sprite)
    (idx : List (Nat × Nat)) : (Sprite.mk d cs idx).frame_sets = d.frame_sets := rfl

@[simp] theorem Sprite.visible_mk (d : SpriteData) (cs : List Sprite)
    (idx : List (Nat × Nat)) : (Sprite.mk d cs idx).visible = d.visible := rfl

/-! ## Characterisation of `play` -/

/-- The function `play` rewrites only `frames` (on a registry hit) and the followup
field; every other field, the children and the index are untouched. -/
theorem play_eq (d : SpriteData) (cs : List Sprite) (idx : List (Nat × Nat))
    (name : String) (fu : Option String) :
    play (.mk d cs idx) name fu =
      Sprite.mk
        { d with
          frames := match alGet d.frame_sets name with
            | some fs => some fs
            | none => d.frames,
          frames_followup := fu } cs idx := by
  cases hget : alGet d.frame_sets name <;> cases fu <;>
    simp only [play, Sprite.frame_sets_mk, hget]

theorem play_frame_idx (s : Sprite) (name : String) (fu : Option String) :
    (play s name fu).frame_idx = s.frame_idx := by
  cases s with
  | mk d cs idx =>
    rw [play_eq]
    rfl

theorem play_frame_delta (s : Sprite) (name : String) (fu : Option String) :
    (play s name fu).frame_delta = s.frame_delta := by
  cases s with
  | mk d cs idx =>
    rw [play_eq]
    rfl

/-! ## `update` never increments the frame index -/

/-- In the source, `update` only ever resets `frame_idx` to `0` (followup
or repeat at the last index) or leaves it unchanged; no code path
increments it. -/
theorem update_frame_idx_cases (s : Sprite) (dt : Rat) :
    update s dt = none ∨
    (update s dt).map Sprite.frame_idx = some s.frame_idx ∨
    (update s dt).map Sprite.frame_idx = some 0 := by
  cases s with
  | mk d cs idx =>
    cases hf : d.frames with
    | none =>
      right; left
      simp only [update, hf]
      rfl
    | some frame =>
      by_cases hgt : d.frame_delta + dt > frame.frame_time
      · by_cases hz : frame.source.length = 0
        · left
          simp only [update, hf, if_pos hgt, if_pos hz]
        · by_cases hlast : d.frame_idx = frame.source.length - 1
          · cases hfu : d.frames_followup with
            | some next =>
              right; right
              cases hrep : frame.repeat' <;>
                simp [update, hf, if_pos hgt, hz, hlast, hfu, hrep,
                  play_eq, Sprite.frame_idx]
            | none =>
              cases hrep : frame.repeat' with
              | true =>
                right; right
                simp [update, hf, if_pos hgt, hz, hlast, hfu, hrep, Sprite.frame_idx]
              | false =>
                right; left
                simp [update, hf, if_pos hgt, hz, hlast, hfu, hrep, Sprite.frame_idx]
          · right; left
            simp [update, hf, if_pos hgt, hz, hlast, Sprite.frame_idx]
      · right; left
        simp [update, hf, if_neg hgt, Sprite.frame_idx]

/-- The followup path of `update`: when the clip finished at its last
index and a followup is set, the result is exactly `play` on the sprite
with `frame_idx` and `frame_delta` reset to `0`. -/
theorem update_followup_path (d : SpriteData) (cs : List Sprite)
    (idx : List (Nat × Nat)) (dt : Rat) (frame : FrameSet) (next : String)
    (hf : d.frames = some frame)
    (hgt : d.frame_delta + dt > frame.frame_time)
    (hz : frame.source.length ≠ 0)
    (hlast : d.frame_idx = frame.source.length - 1)
    (hfu : d.frames_followup = some next) :
    update (.mk d cs idx) dt =
      some (play (.mk { d with frame_delta := 0, frame_idx := 0 } cs idx) next none) := by
  cases hrep : frame.repeat' <;>
    simp [update, hf, if_pos hgt, hz, hlast, hfu, hrep]

/-! ## Concrete sprites for witnesses -/

def texSmall : Texture := ⟨4, 4⟩

def clip3 : FrameSet :=
  ⟨true, 1/10, [⟨0, 0, 16, 16⟩, ⟨16, 0, 16, 16⟩, ⟨32, 0, 16, 16⟩]⟩

def spritePlaying : Sprite :=
  Sprite.mk { (from_texture 0 ⟨100, 50⟩).data with frames := some clip3 } [] []

def concreteTree : Sprite :=
  (add_child
    (add_child (from_texture 0 texSmall)
      (add_child (from_texture 1 texSmall) (from_texture 3 texSmall)).1).1
    (from_texture 2 texSmall)).1

def emptyClipSprite : Sprite :=
  play (add_frameset (from_texture 0 ⟨8, 8⟩) "empty" true (1/10) []) "empty" none

def emptyClipSpriteH : Sprite :=
  play (add_frameset_horizontal (from_texture 1 ⟨8, 8⟩) "h" true (1/10)
    ⟨0, 0, 4, 4⟩ 0) "h" none

/-! ## Claims -/

/-- C1: the claim says an `update(dt)` that makes `frameElapsed` exceed
`frameTime` on a non-last `frameIndex` advances `frameIndex` by one (and
that three `update(0.1)` calls walk a 3-frame repeating clip back to 0).
The code has no increment at all: `update` only ever resets `frame_idx`
to `0` or leaves it unchanged, so on the failing input (3-frame repeating
clip, `frame_time = 1/10`, `frame_idx = 0`, `frame_delta = 0`,
`dt = 1/5 > 1/10`) the delta is reset to `0` but the index stays `0`
instead of becoming `1`. -/
theorem c1_update_never_advances_frame :
    (∀ (s : Sprite) (dt : Rat), update s dt = none ∨
      (update s dt).map Sprite.frame_idx = some s.frame_idx ∨
      (update s dt).map Sprite.frame_idx = some 0) ∧
    (update spritePlaying (1/5)).map Sprite.frame_delta = some 0 ∧
    (update spritePlaying (1/5)).map Sprite.frame_idx = some 0 := by
  refine ⟨update_frame_idx_cases, ?_, ?_⟩ <;>
    · simp [spritePlaying, clip3, update, from_texture, Sprite.frame_idx,
        Sprite.frame_delta]
      norm_num

/-- C2: starting from a freshly constructed sprite, after any sequence of
`add_child`/`remove_child` calls in which every added sprite is well formed
and carries an unused id, every node's children index is the exact inverse
of its children sequence (`wfb`: each map key points at the child with that
id, and each child's id is a map key exactly once, at every node). -/
theorem c2_children_index_exact_inverse (id : Nat) (t : Texture)
    (ops : List Op) (hops : opsOk (from_texture id t) ops = true) :
    wfb (applyOps (from_texture id t) ops) = true :=
  wfb_applyOps _ ops rfl hops

/-- C2 witness: a concrete sequence with a nested add and removals. -/
theorem c2_children_index_exact_inverse_witness :
    opsOk (from_texture 0 texSmall)
      [.add (from_texture 1 texSmall),
       .add (add_child (from_texture 2 texSmall) (from_texture 3 texSmall)).1,
       .remove 1, .remove 3] = true ∧
    wfb (applyOps (from_texture 0 texSmall)
      [.add (from_texture 1 texSmall),
       .add (add_child (from_texture 2 texSmall) (from_texture 3 texSmall)).1,
       .remove 1, .remove 3]) = true :=
  ⟨by decide, c2_children_index_exact_inverse 0 texSmall _ (by decide)⟩

/-- C3 counterexample: the claim says frame `i` of
`addFrameSetHorizontal(name, repeat, frameTime, [x,y,w,h], count)` is
`[x + i*w, y, w, h]`.  With base rectangle `[5,7,2,3]` and `count = 2` the
code registers `[[0,7,2,3], [2,7,2,3]]`, not `[[5,7,2,3], [7,7,2,3]]`:
the base x is ignored. -/
theorem c3_horizontal_tiling_counterexample :
    (alGet (add_frameset_horizontal (from_texture 0 ⟨8, 8⟩) "walk" true (1/10)
        ⟨5, 7, 2, 3⟩ 2).frame_sets "walk").map FrameSet.source
      ≠ some [⟨5, 7, 2, 3⟩, ⟨7, 7, 2, 3⟩] := by
  have hval : (alGet (add_frameset_horizontal (from_texture 0 ⟨8, 8⟩) "walk"
      true (1/10) ⟨5, 7, 2, 3⟩ 2).frame_sets "walk").map FrameSet.source
      = some [⟨0, 7, 2, 3⟩, ⟨2, 7, 2, 3⟩] := by
    simp [add_frameset_horizontal, add_frameset, alGet, alContains, alInsert,
      from_texture, Sprite.frame_sets, List.range_succ]
  rw [hval]
  intro h
  injection h with h1
  injection h1 with h2 h3
  injection h2 with hx hy hw hh
  norm_num at hx

/-- C3 amended: for every sprite whose registry does not yet contain
`name`, `add_frameset_horizontal` registers a clip of exactly `count`
frames whose frame `i` is `[i*w, y, w, h]` — the tiles start at `x = 0`
and only the base rectangle's y, width and height are used. -/
theorem c3_horizontal_tiling_amended (s : Sprite) (name : String)
    (rep : Bool) (ft : Rat) (r : Rect) (count : Nat)
    (h : alContains s.frame_sets name = false) :
    alGet (add_frameset_horizontal s name rep ft r count).frame_sets name =
      some ⟨rep, ft, (List.range count).map
        (fun (i : Nat) => ⟨(i : Rat) * r.w, r.y, r.w, r.h⟩)⟩ ∧
    ((List.range count).map
      (fun (i : Nat) => (⟨(i : Rat) * r.w, r.y, r.w, r.h⟩ : Rect))).length = count := by
  cases s with
  | mk d cs idx =>
    rw [Sprite.frame_sets_mk] at h
    constructor
    · rw [add_frameset_horizontal, add_frameset]
      rw [if_neg (by rw [h]; exact Bool.false_ne_true)]
      rw [Sprite.frame_sets_mk, alGet_insert, if_pos rfl]
    · simp

/-- C3 amended witness. -/
theorem c3_horizontal_tiling_amended_witness :
    alContains (from_texture 0 ⟨8, 8⟩).frame_sets "walk" = false ∧
    (alGet (add_frameset_horizontal (from_texture 0 ⟨8, 8⟩) "walk" true (1/10)
        ⟨5, 7, 2, 3⟩ 2).frame_sets "walk" =
      some ⟨true, 1/10, (List.range 2).map
        (fun (i : Nat) => ⟨(i : Rat) * 2, 7, 2, 3⟩)⟩ ∧
    ((List.range 2).map
      (fun (i : Nat) => (⟨(i : Rat) * 2, 7, 2, 3⟩ : Rect))).length = 2) :=
  ⟨rfl, c3_horizontal_tiling_amended (from_texture 0 ⟨8, 8⟩) "walk" true (1/10)
    ⟨5, 7, 2, 3⟩ 2 rfl⟩

/-- C4: the claim says the source rectangle handed to the renderer is the
active frame's rectangle when a frame set is playing.  In the code the
quad's destination size and anchor offset do come from the frame rectangle
`r`, but the rectangle handed to the renderer capability
(`maybe_src_rect`) is the sprite's `src_rect` field — `none` (full
texture) unless an explicit source rectangle was set — never the frame
rectangle (the `FIXME` in the source marks exactly this). -/
theorem c4_draw_hands_src_rect_not_frame (d : SpriteData)
    (idx : List (Nat × Nat)) (t : Matrix2d) (frame : FrameSet) (r : Rect)
    (hv : d.visible = true) (hf : d.frames = some frame)
    (hr : frame.source.get? d.frame_idx = some r) :
    (draw (.mk d [] idx) t).map (List.map Quad.src_rect) = some [d.src_rect] ∧
    (draw (.mk d [] idx) t).map (List.map Quad.rect) =
      some [⟨-(d.anchor.x * r.w), -(d.anchor.y * r.h), r.w, r.h⟩] := by
  have hr' : frame.source[d.frame_idx]? = some r := by
    rw [← List.get?_eq_getElem?]
    exact hr
  constructor <;> simp [draw, hv, sourceRectangleOf, hf, hr', drawChildren]

/-- C4 witness: a playing sprite on frame 1 with no explicit source
rectangle; the renderer receives `none` (full texture) while the quad
geometry is that of frame 1. -/
theorem c4_draw_hands_src_rect_not_frame_witness :
    spritePlaying.data.visible = true ∧
    spritePlaying.data.frames = some clip3 ∧
    clip3.source.get? spritePlaying.data.frame_idx = some ⟨0, 0, 16, 16⟩ ∧
    ((draw (.mk spritePlaying.data [] []) Matrix2d.id0).map
        (List.map Quad.src_rect) = some [spritePlaying.data.src_rect] ∧
      (draw (.mk spritePlaying.data [] []) Matrix2d.id0).map
          (List.map Quad.rect) =
        some [⟨-(spritePlaying.data.anchor.x * 16),
          -(spritePlaying.data.anchor.y * 16), 16, 16⟩]) :=
  ⟨rfl, rfl, rfl,
    c4_draw_hands_src_rect_not_frame spritePlaying.data [] Matrix2d.id0 clip3
      ⟨0, 0, 16, 16⟩ rfl rfl rfl⟩

/-- C5: on a well-formed tree, `remove_child id` with `id` present at any
depth succeeds and returns exactly the node carrying `id`; the tree is
unchanged except that this one node is gone — its former siblings keep
their order and count, the affected parent's index map is rebuilt as the
exact inverse of its new children, and every node off the path is
untouched (`RemovedRel`).  With `id` absent from the whole subtree it
returns the absent value and the sprite is unchanged. -/
theorem c5_remove_child_exact (s : Sprite) (id : Nat) (hs : wfb s = true) :
    (id ∈ descIds s →
      ∃ s' r, remove_child s id = some (s', some r) ∧ r.id = id ∧
        RemovedRel s s' r) ∧
    (id ∉ descIds s → remove_child s id = some (s, none)) :=
  ⟨(remove_child_cases id s hs).2, (remove_child_cases id s hs).1⟩

/-- C5 witness: removing a grandchild (id 3) from a concrete two-level
tree, and removing an absent id (99). -/
theorem c5_remove_child_exact_witness :
    (wfb concreteTree = true ∧ 3 ∈ descIds concreteTree ∧
      99 ∉ descIds concreteTree) ∧
    ((3 ∈ descIds concreteTree →
      ∃ s' r, remove_child concreteTree 3 = some (s', some r) ∧ r.id = 3 ∧
        RemovedRel concreteTree s' r)) ∧
    (99 ∉ descIds concreteTree →
      remove_child concreteTree 99 = some (concreteTree, none)) :=
  ⟨⟨by decide, by decide, by decide⟩,
    (c5_remove_child_exact concreteTree 3 (by decide)).1,
    (c5_remove_child_exact concreteTree 99 (by decide)).2⟩

/-- C6: `play` with a name absent from the frame-set registry leaves the
active frame set, `frame_idx` and `frame_delta` unchanged (and, being a
total function in the model, raises no fault), but still updates the
followup field to exactly the `followup` argument. -/
theorem c6_play_unknown_name (s : Sprite) (name : String) (fu : Option String)
    (h : alContains s.frame_sets name = false) :
    (play s name fu).frames = s.frames ∧
    (play s name fu).frame_idx = s.frame_idx ∧
    (play s name fu).frame_delta = s.frame_delta ∧
    (play s name fu).frames_followup = fu := by
  cases s with
  | mk d cs idx =>
    rw [Sprite.frame_sets_mk] at h
    have hget : alGet d.frame_sets name = none := by
      rw [alContains] at h
      exact Option.not_isSome_iff_eq_none.mp (by simp [h])
    rw [play_eq, hget]
    exact ⟨rfl, rfl, rfl, rfl⟩

/-- C6 witness: an empty registry and a followup argument. -/
theorem c6_play_unknown_name_witness :
    alContains (from_texture 0 texSmall).frame_sets "missing" = false ∧
    ((play (from_texture 0 texSmall) "missing" (some "next")).frames
        = (from_texture 0 texSmall).frames ∧
      (play (from_texture 0 texSmall) "missing" (some "next")).frame_idx
        = (from_texture 0 texSmall).frame_idx ∧
      (play (from_texture 0 texSmall) "missing" (some "next")).frame_delta
        = (from_texture 0 texSmall).frame_delta ∧
      (play (from_texture 0 texSmall) "missing" (some "next")).frames_followup
        = some "next") :=
  ⟨rfl, c6_play_unknown_name (from_texture 0 texSmall) "missing" (some "next") rfl⟩

/-- C7: a direct call to `play` never changes `frame_idx` or
`frame_delta` — it rewrites only the active clip and the followup field —
while the followup path inside `update` (clip finished at its last index
with a followup set) is exactly a `play` of the followup clip on the
sprite with `frame_idx` reset to `0`. -/
theorem c7_play_preserves_position :
    (∀ (s : Sprite) (name : String) (fu : Option String),
      (play s name fu).frame_idx = s.frame_idx ∧
      (play s name fu).frame_delta = s.frame_delta ∧
      play s name fu = Sprite.mk
        { s.data with
          frames := (play s name fu).frames,
          frames_followup := fu } s.children s.children_index) ∧
    (∀ (d : SpriteData) (cs : List Sprite) (idx : List (Nat × Nat))
        (dt : Rat) (frame : FrameSet) (next : String),
      d.frames = some frame →
      d.frame_delta + dt > frame.frame_time →
      frame.source.length ≠ 0 →
      d.frame_idx = frame.source.length - 1 →
      d.frames_followup = some next →
      ∃ s', update (.mk d cs idx) dt = some s' ∧ s'.frame_idx = 0 ∧
        s' = play (.mk { d with frame_delta := 0, frame_idx := 0 } cs idx)
          next none) := by
  constructor
  · intro s name fu
    cases s with
    | mk d cs idx =>
      refine ⟨play_frame_idx _ _ _, play_frame_delta _ _ _, ?_⟩
      rw [play_eq]
      rfl
  · intro d cs idx dt frame next hf hgt hz hlast hfu
    refine ⟨_, update_followup_path d cs idx dt frame next hf hgt hz hlast hfu,
      ?_, rfl⟩
    rw [play_frame_idx]
    rfl

/-- Sprite data sitting on the last frame of `clip3` with a followup set. -/
def lastFrameData : SpriteData :=
  { spritePlaying.data with frame_idx := 2, frames_followup := some "other" }

/-- C7 witness: a registered clip played directly keeps its position, and
the followup path of `update` lands on frame 0. -/
theorem c7_play_preserves_position_witness :
    ((play spritePlaying "other" none).frame_idx = spritePlaying.frame_idx ∧
      (play spritePlaying "other" none).frame_delta = spritePlaying.frame_delta ∧
      play spritePlaying "other" none = Sprite.mk
        { spritePlaying.data with
          frames := (play spritePlaying "other" none).frames,
          frames_followup := none } spritePlaying.children
        spritePlaying.children_index) ∧
    (lastFrameData.frames = some clip3 ∧
      lastFrameData.frame_delta + 1/5 > clip3.frame_time ∧
      clip3.source.length ≠ 0 ∧
      lastFrameData.frame_idx = clip3.source.length - 1 ∧
      lastFrameData.frames_followup = some "other" ∧
      ∃ s', update (.mk lastFrameData [] []) (1/5) = some s' ∧
        s'.frame_idx = 0 ∧
        s' = play (.mk { lastFrameData with frame_delta := 0, frame_idx := 0 }
          [] []) "other" none) := by
  have hgt : lastFrameData.frame_delta + 1/5 > clip3.frame_time := by
    norm_num [lastFrameData, spritePlaying, from_texture, clip3]
  have h2 := c7_play_preserves_position.2 lastFrameData [] [] (1/5) clip3
    "other" rfl hgt (by decide) rfl rfl
  exact ⟨c7_play_preserves_position.1 spritePlaying "other" none,
    rfl, hgt, by decide, rfl, rfl, h2⟩

/-- C8: `bounding_box` returns
`[position.x - anchor.x * w', position.y - anchor.y * h', w', h']` where
`w'`/`h'` are the active source rectangle's width/height scaled by
`scale.x`/`scale.y`. -/
theorem c8_bounding_box_formula (s : Sprite) (r : Rect)
    (h : sourceRectangleOf s.data = some r) :
    bounding_box s = some
      ⟨s.data.position.x - s.data.anchor.x * (r.w * s.data.scale.x),
       s.data.position.y - s.data.anchor.y * (r.h * s.data.scale.y),
       r.w * s.data.scale.x, r.h * s.data.scale.y⟩ := by
  cases s with
  | mk d cs idx =>
    rw [Sprite.data_mk] at h
    simp only [bounding_box, h, Sprite.data_mk]

/-- Node at position (10, 20), anchor (0.5, 0.5), scale (2, 2) on a
100 times 50 texture (spec example for the bounding box). -/
def boundingBoxExample : Sprite :=
  Sprite.mk { (from_texture 0 ⟨100, 50⟩).data with
    position := ⟨10, 20⟩, scale := ⟨2, 2⟩ } [] []

/-- C8 witness: the spec's concrete example gives (-90, -30, 200, 100). -/
theorem c8_bounding_box_formula_witness :
    sourceRectangleOf boundingBoxExample.data = some ⟨0, 0, 100, 50⟩ ∧
    bounding_box boundingBoxExample = some ⟨-90, -30, 200, 100⟩ := by
  have hsrc : sourceRectangleOf boundingBoxExample.data = some ⟨0, 0, 100, 50⟩ := by
    simp [sourceRectangleOf, boundingBoxExample, from_texture]
  refine ⟨hsrc, ?_⟩
  rw [c8_bounding_box_formula boundingBoxExample ⟨0, 0, 100, 50⟩ hsrc]
  simp [boundingBoxExample, from_texture]
  norm_num

/-- C9: an invisible sprite draws nothing at all — `draw` and
`draw_tinted` submit zero quads for the node and its whole subtree, and no
child is visited, whatever the children's own visibility. -/
theorem c9_invisible_draws_nothing (s : Sprite) (h : s.visible = false) :
    (∀ t, draw s t = some []) ∧ ∀ t c, draw_tinted s t c = some [] := by
  cases s with
  | mk d cs idx =>
    rw [Sprite.visible_mk] at h
    constructor
    · intro t
      simp [draw, h]
    · intro t c
      simp [draw_tinted, h]

/-- An invisible root carrying a visible child. -/
def invisibleParent : Sprite :=
  Sprite.mk { (from_texture 0 texSmall).data with visible := false }
    [from_texture 1 texSmall] [(1, 0)]

/-- C9 witness: the invisible root with a visible child submits nothing. -/
theorem c9_invisible_draws_nothing_witness :
    invisibleParent.visible = false ∧
    ((∀ t, draw invisibleParent t = some []) ∧
      ∀ t c, draw_tinted invisibleParent t c = some []) :=
  ⟨rfl, c9_invisible_draws_nothing invisibleParent rfl⟩

/-- C10: nothing stops registering an empty clip (empty `add_frameset`
list or `add_frameset_horizontal` with `count = 0`) and playing it; the
next `draw` then indexes the empty frame list at `frame_idx = 0`
(out-of-bounds panic, modelled `none`) and an `update` crossing the time
threshold evaluates `len - 1` on length `0` (usize underflow panic,
modelled `none`): the error branch is reachable from the public
interface. -/
theorem c10_empty_clip_reachable :
    emptyClipSprite.frames = some ⟨true, 1/10, []⟩ ∧
    draw emptyClipSprite .id0 = none ∧
    update emptyClipSprite (1/5) = none ∧
    emptyClipSpriteH.frames = some ⟨true, 1/10, []⟩ ∧
    draw emptyClipSpriteH .id0 = none := by
  refine ⟨?_, ?_, ?_, ?_, ?_⟩
  · simp [emptyClipSprite, play, add_frameset, from_texture, alGet, alContains,
      alInsert]
  · simp [emptyClipSprite, draw, play, add_frameset, from_texture, alGet,
      alContains, alInsert, sourceRectangleOf]
  · simp [emptyClipSprite, update, play, add_frameset, from_texture, alGet,
      alContains, alInsert]
    norm_num
  · simp [emptyClipSpriteH, play, add_frameset_horizontal, add_frameset,
      from_texture, alGet, alContains, alInsert]
  · simp [emptyClipSpriteH, draw, play, add_frameset_horizontal, add_frameset,
      from_texture, alGet, alContains, alInsert, sourceRectangleOf]
